import Mathlib

/-!
Verification of the cancellable stdin line reading subsystem of the cli
package (readline.go): the functions ReadLine and ReadLines, their shared
background pump built on a bufio Reader ReadString call with the newline
delimiter, and the relay loop of ReadLines that selects between the
handoff channel and the Done channel of the context.

The byte source is modelled as the list of bytes it will deliver followed
by the condition its reads report once those run out (clean end of input,
io.EOF in the code, or any other read error). The concurrent parts are
modelled as a small step transition system whose nondeterminism matches
the Go select statement: when several branches are ready, any of them may
be taken.
-/

/-- Condition a read on the byte source reports after the listed bytes
are exhausted: clean end of input (io.EOF in the code) or any other read
error. -/
inductive SourceEnd : Type where
  | eof : SourceEnd
  | fail : SourceEnd
deriving DecidableEq

/-- The blocking byte source (the package variable stdin): the bytes it
will deliver in order, then the condition its reads report afterwards. -/
structure Source : Type where
  bytes : List Char
  endSt : SourceEnd
deriving DecidableEq

/-- Scan for the first newline: some (data up to and including that
newline, remaining bytes), or none when no newline occurs. -/
def splitAtNL : List Char → Option (List Char × List Char)
  | [] => none
  | c :: cs =>
    if c = '\n' then some ([c], cs)
    else
      match splitAtNL cs with
      | none => none
      | some (pre, post) => some (c :: pre, post)

/-- The call r.ReadString of the bufio Reader with the newline delimiter:
returns the data read (including the delimiter on success), the error
(none when the delimiter was found, otherwise the end condition of the
source), and the remaining source. -/
def readString (s : Source) : (List Char × Option SourceEnd) × Source :=
  match splitAtNL s.bytes with
  | some (pre, post) => ((pre, none), ⟨post, s.endSt⟩)
  | none => ((s.bytes, some s.endSt), ⟨[], s.endSt⟩)

/-- The single read performed by the goroutine inside ReadLine: on any
error or empty data it sends the empty string on the input channel,
otherwise the line with its final character removed, exactly as the code
writes line[:len(line)-1]. -/
def readLinePump (s : Source) : List Char :=
  match readString s with
  | ((line, err), _) =>
    if err ≠ none ∨ line = [] then [] else line.dropLast

/-- Possible results of the select inside ReadLine on a source s. The
Bool parameter records whether the context becomes cancelled at some
point before the select resolves. The input branch (constructor pump) is
available in every case because the pump read always completes in this
model; the Done branch (constructor cancel) is available exactly when the
context is cancelled. Go select chooses among ready branches with no
priority, so several constructors may apply to one situation. -/
inductive ReadLineOutcome : Bool → Source → List Char → Prop where
  | pump (b : Bool) (s : Source) : ReadLineOutcome b s (readLinePump s)
  | cancel (s : Source) : ReadLineOutcome true s []

/-- Message the pump goroutine of ReadLines produces next: a line sent on
the handoff channel c, closing c at io.EOF, or a panic on any other read
error. -/
inductive PumpMsg : Type where
  | line : List Char → PumpMsg
  | closed : PumpMsg
  | panics : PumpMsg
deriving DecidableEq

/-- One iteration of the pump loop of ReadLines, mirroring its switch:
io.EOF closes the channel, any other error panics, and otherwise the line
is sent without its final character (line[:len(line)-1]). -/
def pumpNext (s : Source) : PumpMsg × Source :=
  match readString s with
  | ((_, some .eof), rest) => (.closed, rest)
  | ((_, some .fail), rest) => (.panics, rest)
  | ((line, none), rest) => (.line line.dropLast, rest)

/-- Control state of the relay goroutine of ReadLines: at the top of its
select, blocked sending a received line on the lines channel (the bare
send lines <- l of the code), or returned after close(lines). -/
inductive RelaySt : Type where
  | selecting : RelaySt
  | forwarding : List Char → RelaySt
  | closed : RelaySt
deriving DecidableEq

/-- Global state of one ReadLines call: the remaining source owned by the
pump, whether the pump panicked (an unrecovered panic in a goroutine
aborts the whole Go process), the relay control state, whether the
context has been cancelled, and the lines the consumer has received from
the lines channel, in order. -/
structure LState : Type where
  src : Source
  panicked : Bool
  relay : RelaySt
  cancelled : Bool
  delivered : List (List Char)
deriving DecidableEq

/-- Initial state of one ReadLines call on source s; b tells whether the
context is already cancelled when the call is made. -/
def initLS (s : Source) (b : Bool) : LState :=
  ⟨s, false, .selecting, b, []⟩

/-- Interleaved small step semantics of one ReadLines call. cancel is the
context being cancelled by the environment. recvLine and recvClosed are
the channel branch of the relay select rendezvousing with the pump (a
line handed over, or the closed handoff channel observed); they need no
hypothesis on cancellation because Go select picks among ready branches
with no priority. pumpPanic is the pump hitting a read error other than
io.EOF and panicking, which aborts the whole process, so no rule applies
to a panicked state. consumerRecv is the consumer receiving the line the
relay is blocked forwarding; the forward is a bare send, so it offers no
branch observing cancellation. cancelClose is the Done branch of the
relay select. -/
inductive Step : LState → LState → Prop where
  | cancel (st : LState) :
      st.panicked = false → st.cancelled = false →
      Step st { st with cancelled := true }
  | recvLine (st : LState) (l : List Char) (rest : Source) :
      st.panicked = false → st.relay = .selecting →
      pumpNext st.src = (.line l, rest) →
      Step st { st with relay := .forwarding l, src := rest }
  | recvClosed (st : LState) (rest : Source) :
      st.panicked = false → st.relay = .selecting →
      pumpNext st.src = (.closed, rest) →
      Step st { st with relay := .closed }
  | pumpPanic (st : LState) (rest : Source) :
      st.panicked = false →
      pumpNext st.src = (.panics, rest) →
      Step st { st with panicked := true }
  | consumerRecv (st : LState) (l : List Char) :
      st.panicked = false → st.relay = .forwarding l →
      Step st { st with relay := .selecting, delivered := st.delivered ++ [l] }
  | cancelClose (st : LState) :
      st.panicked = false → st.relay = .selecting → st.cancelled = true →
      Step st { st with relay := .closed }

/-- Reachability in zero or more steps. -/
def Reach : LState → LState → Prop := Relation.ReflTransGen Step

/-- The concatenation of the given lines, each followed by a newline:
the byte content of a source made of exactly these terminated lines. -/
def joinNL (ls : List (List Char)) : List Char :=
  (ls.map (fun l => l ++ ['\n'])).flatten

theorem joinNL_cons (a : List Char) (t : List (List Char)) :
    joinNL (a :: t) = a ++ '\n' :: joinNL t := by
  simp [joinNL]

theorem splitAtNL_append (l rest : List Char) (h : ('\n') ∉ l) :
    splitAtNL (l ++ '\n' :: rest) = some (l ++ ['\n'], rest) := by
  induction l with
  | nil => simp [splitAtNL]
  | cons c cs ih =>
    have hc : ¬ c = '\n' := by
      intro he
      exact h (he ▸ List.mem_cons_self c cs)
    have hcs : ('\n') ∉ cs := fun hm => h (List.mem_cons_of_mem c hm)
    simp [splitAtNL, hc, ih hcs]

theorem splitAtNL_none (l : List Char) (h : ('\n') ∉ l) :
    splitAtNL l = none := by
  induction l with
  | nil => rfl
  | cons c cs ih =>
    have hc : ¬ c = '\n' := by
      intro he
      exact h (he ▸ List.mem_cons_self c cs)
    have hcs : ('\n') ∉ cs := fun hm => h (List.mem_cons_of_mem c hm)
    simp [splitAtNL, hc, ih hcs]

theorem readString_some (s : Source) (pre post : List Char)
    (h : splitAtNL s.bytes = some (pre, post)) :
    readString s = ((pre, none), ⟨post, s.endSt⟩) := by
  unfold readString
  rw [h]

theorem readString_none (s : Source) (h : splitAtNL s.bytes = none) :
    readString s = ((s.bytes, some s.endSt), ⟨[], s.endSt⟩) := by
  unfold readString
  rw [h]

theorem pumpNext_some (s : Source) (pre post : List Char)
    (h : splitAtNL s.bytes = some (pre, post)) :
    pumpNext s = (PumpMsg.line pre.dropLast, ⟨post, s.endSt⟩) := by
  unfold pumpNext
  rw [readString_some s pre post h]

theorem pumpNext_none_eof (s : Source) (h : splitAtNL s.bytes = none)
    (he : s.endSt = .eof) :
    pumpNext s = (PumpMsg.closed, ⟨[], SourceEnd.eof⟩) := by
  unfold pumpNext
  rw [readString_none s h, he]

theorem pumpNext_none_fail (s : Source) (h : splitAtNL s.bytes = none)
    (he : s.endSt = .fail) :
    pumpNext s = (PumpMsg.panics, ⟨[], SourceEnd.fail⟩) := by
  unfold pumpNext
  rw [readString_none s h, he]

theorem dropLast_snoc {α : Type} (l : List α) (a : α) :
    (l ++ [a]).dropLast = l := by
  simp

theorem pumpNext_line (l rest : List Char) (e : SourceEnd)
    (h : ('\n') ∉ l) :
    pumpNext ⟨l ++ '\n' :: rest, e⟩ = (PumpMsg.line l, ⟨rest, e⟩) := by
  have hs := pumpNext_some ⟨l ++ '\n' :: rest, e⟩ (l ++ ['\n']) rest
    (splitAtNL_append l rest h)
  rw [hs, dropLast_snoc]

theorem pumpNext_panics_fail (s : Source) (rest : Source)
    (h : pumpNext s = (PumpMsg.panics, rest)) : s.endSt = SourceEnd.fail := by
  cases he : s.endSt with
  | fail => rfl
  | eof =>
    cases hsp : splitAtNL s.bytes with
    | none =>
      rw [pumpNext_none_eof s hsp he] at h
      simp at h
    | some pr =>
      obtain ⟨pre, post⟩ := pr
      rw [pumpNext_some s pre post hsp] at h
      simp at h

theorem pumpNext_closed_eof (s : Source) (rest : Source)
    (h : pumpNext s = (PumpMsg.closed, rest)) : s.endSt = SourceEnd.eof := by
  cases he : s.endSt with
  | eof => rfl
  | fail =>
    cases hsp : splitAtNL s.bytes with
    | none =>
      rw [pumpNext_none_fail s hsp he] at h
      simp at h
    | some pr =>
      obtain ⟨pre, post⟩ := pr
      rw [pumpNext_some s pre post hsp] at h
      simp at h

theorem pumpNext_line_endSt (s : Source) (l : List Char) (rest : Source)
    (h : pumpNext s = (PumpMsg.line l, rest)) : rest.endSt = s.endSt := by
  cases hsp : splitAtNL s.bytes with
  | none =>
    cases he : s.endSt with
    | eof =>
      rw [pumpNext_none_eof s hsp he] at h
      simp at h
    | fail =>
      rw [pumpNext_none_fail s hsp he] at h
      simp at h
  | some pr =>
    obtain ⟨pre, post⟩ := pr
    have hs := (pumpNext_some s pre post hsp).symm.trans h
    have h2 : (⟨post, s.endSt⟩ : Source) = rest := congrArg Prod.snd hs
    rw [← h2]

theorem take_snoc_get {α : Type} (ls : List α) (k : Nat) (h : k < ls.length) :
    ls.take k ++ [ls.get ⟨k, h⟩] = ls.take (k + 1) := by
  induction ls generalizing k with
  | nil => exact absurd h (Nat.not_lt_zero k)
  | cons a t ih =>
    cases k with
    | zero => simp
    | succ n => simp

theorem drop_eq_cons_get {α : Type} (ls : List α) (k : Nat) (h : k < ls.length) :
    ls.drop k = ls.get ⟨k, h⟩ :: ls.drop (k + 1) := by
  induction ls generalizing k with
  | nil => exact absurd h (Nat.not_lt_zero k)
  | cons a t ih =>
    cases k with
    | zero => simp
    | succ n => simp

theorem length_le_of_drop_nil {α : Type} (ls : List α) (k : Nat)
    (h : ls.drop k = []) : ls.length ≤ k := by
  induction ls generalizing k with
  | nil => simp
  | cons a t ih =>
    cases k with
    | zero => simp at h
    | succ n =>
      have := ih n (by simpa using h)
      simpa using this

theorem take_of_length_le {α : Type} (ls : List α) (k : Nat)
    (h : ls.length ≤ k) : ls.take k = ls := by
  induction ls generalizing k with
  | nil => simp
  | cons a t ih =>
    cases k with
    | zero => simp at h
    | succ n => simp [ih n (by simpa using h)]

/-- Invariant tying a reachable state of one ReadLines call to the
terminated source lines ls (none containing a newline) and the trailing
unterminated fragment frag: the pump never panics, the source end stays
clean, and the call is either at the select with k lines fully delivered,
or blocked forwarding line k with k lines delivered, or closed having
delivered a prefix of ls, the full ls whenever no cancellation occurred. -/
def InvLS (ls : List (List Char)) (frag : List Char) (st : LState) : Prop :=
  st.panicked = false ∧ st.src.endSt = .eof ∧
  ((∃ k, k ≤ ls.length ∧ st.relay = .selecting ∧ st.delivered = ls.take k ∧
      st.src.bytes = joinNL (ls.drop k) ++ frag) ∨
   (∃ k, ∃ h : k < ls.length, st.relay = .forwarding (ls.get ⟨k, h⟩) ∧
      st.delivered = ls.take k ∧
      st.src.bytes = joinNL (ls.drop (k + 1)) ++ frag) ∨
   (st.relay = .closed ∧ (∃ k, k ≤ ls.length ∧ st.delivered = ls.take k) ∧
      (st.cancelled = false → st.delivered = ls)))

theorem source_eq (s : Source) (b2 : List Char) (e2 : SourceEnd)
    (hb : s.bytes = b2) (he : s.endSt = e2) : s = ⟨b2, e2⟩ := by
  cases s
  cases hb
  cases he
  rfl

theorem invLS_step (ls : List (List Char)) (frag : List Char)
    (st st' : LState) (hok : ∀ l ∈ ls, ('\n') ∉ l) (hf : ('\n') ∉ frag)
    (hinv : InvLS ls frag st) (hstep : Step st st') : InvLS ls frag st' := by
  obtain ⟨hp, he, hcase⟩ := hinv
  cases hstep with
  | cancel h1 h2 =>
    refine ⟨hp, he, ?_⟩
    rcases hcase with h | h | h
    · exact Or.inl h
    · exact Or.inr (Or.inl h)
    · exact Or.inr (Or.inr ⟨h.1, h.2.1, fun hc => Bool.noConfusion hc⟩)
  | recvLine l rest h1 h2 h3 =>
    rcases hcase with ⟨k, hk, hrel, hdel, hbytes⟩ |
      ⟨k, hklt, hrel, hdel, hbytes⟩ | ⟨hrel, hpre, himp⟩
    · cases hdk : ls.drop k with
      | nil =>
        exfalso
        have hsrc : st.src = ⟨frag, SourceEnd.eof⟩ := by
          refine source_eq st.src _ _ ?_ he
          rw [hbytes, hdk]
          simp [joinNL]
        rw [hsrc, pumpNext_none_eof ⟨frag, SourceEnd.eof⟩
          (splitAtNL_none frag hf) rfl] at h3
        simp at h3
      | cons a t =>
        have hklt : k < ls.length := by
          rcases Nat.lt_or_ge k ls.length with hlt | hge
          · exact hlt
          · exfalso
            rw [List.drop_eq_nil_iff.mpr hge] at hdk
            cases hdk
        have hdg : ls.get ⟨k, hklt⟩ :: ls.drop (k + 1) = a :: t := by
          rw [← drop_eq_cons_get ls k hklt, hdk]
        have ha : ls.get ⟨k, hklt⟩ = a := by
          injection hdg
        have ht : ls.drop (k + 1) = t := by
          injection hdg with x y
        have hsrc : st.src =
            ⟨ls.get ⟨k, hklt⟩ ++ '\n' :: (joinNL (ls.drop (k + 1)) ++ frag),
              SourceEnd.eof⟩ := by
          refine source_eq st.src _ _ ?_ he
          rw [hbytes, hdk, joinNL_cons, ha, ht]
          simp
        rw [hsrc, pumpNext_line (ls.get ⟨k, hklt⟩)
          (joinNL (ls.drop (k + 1)) ++ frag) SourceEnd.eof
          (hok _ (List.get_mem ls k hklt))] at h3
        have hl : ls.get ⟨k, hklt⟩ = l := by
          have hfst := congrArg Prod.fst h3
          simp only at hfst
          injection hfst
        have hrest : rest =
            ⟨joinNL (ls.drop (k + 1)) ++ frag, SourceEnd.eof⟩ :=
          (congrArg Prod.snd h3).symm
        refine ⟨hp, ?_, Or.inr (Or.inl ⟨k, hklt, ?_, hdel, ?_⟩)⟩
        · show rest.endSt = SourceEnd.eof
          rw [hrest]
        · show RelaySt.forwarding l = RelaySt.forwarding (ls.get ⟨k, hklt⟩)
          rw [hl]
        · show rest.bytes = joinNL (ls.drop (k + 1)) ++ frag
          rw [hrest]
    · exfalso
      rw [h2] at hrel
      cases hrel
    · exfalso
      rw [h2] at hrel
      cases hrel
  | recvClosed rest h1 h2 h3 =>
    rcases hcase with ⟨k, hk, hrel, hdel, hbytes⟩ |
      ⟨k, hklt, hrel, hdel, hbytes⟩ | ⟨hrel, hpre, himp⟩
    · cases hdk : ls.drop k with
      | nil =>
        have hlen : ls.length ≤ k := length_le_of_drop_nil ls k hdk
        refine ⟨hp, he, Or.inr (Or.inr ⟨rfl, ⟨k, hk, hdel⟩, fun _ => ?_⟩)⟩
        show st.delivered = ls
        rw [hdel, take_of_length_le ls k hlen]
      | cons a t =>
        exfalso
        have hklt : k < ls.length := by
          rcases Nat.lt_or_ge k ls.length with hlt | hge
          · exact hlt
          · exfalso
            rw [List.drop_eq_nil_iff.mpr hge] at hdk
            cases hdk
        have hdg : ls.get ⟨k, hklt⟩ :: ls.drop (k + 1) = a :: t := by
          rw [← drop_eq_cons_get ls k hklt, hdk]
        have ha : ls.get ⟨k, hklt⟩ = a := by
          injection hdg
        have ht : ls.drop (k + 1) = t := by
          injection hdg with x y
        have hsrc : st.src =
            ⟨ls.get ⟨k, hklt⟩ ++ '\n' :: (joinNL (ls.drop (k + 1)) ++ frag),
              SourceEnd.eof⟩ := by
          refine source_eq st.src _ _ ?_ he
          rw [hbytes, hdk, joinNL_cons, ha, ht]
          simp
        rw [hsrc, pumpNext_line (ls.get ⟨k, hklt⟩)
          (joinNL (ls.drop (k + 1)) ++ frag) SourceEnd.eof
          (hok _ (List.get_mem ls k hklt))] at h3
        simp at h3
    · exfalso
      rw [h2] at hrel
      cases hrel
    · exfalso
      rw [h2] at hrel
      cases hrel
  | pumpPanic rest h1 h2 =>
    exfalso
    have hff := pumpNext_panics_fail st.src rest h2
    rw [he] at hff
    cases hff
  | consumerRecv l h1 h2 =>
    rcases hcase with ⟨k, hk, hrel, hdel, hbytes⟩ |
      ⟨k, hklt, hrel, hdel, hbytes⟩ | ⟨hrel, hpre, himp⟩
    · exfalso
      rw [h2] at hrel
      cases hrel
    · have hl : ls.get ⟨k, hklt⟩ = l := by
        rw [h2] at hrel
        injection hrel with x
        exact x.symm
      refine ⟨hp, he, Or.inl ⟨k + 1, hklt, rfl, ?_, hbytes⟩⟩
      show st.delivered ++ [l] = ls.take (k + 1)
      rw [hdel, ← hl, take_snoc_get ls k hklt]
    · exfalso
      rw [h2] at hrel
      cases hrel
  | cancelClose h1 h2 h3 =>
    rcases hcase with ⟨k, hk, hrel, hdel, hbytes⟩ |
      ⟨k, hklt, hrel, hdel, hbytes⟩ | ⟨hrel, hpre, himp⟩
    · refine ⟨hp, he, Or.inr (Or.inr ⟨rfl, ⟨k, hk, hdel⟩, fun hc => ?_⟩)⟩
      exfalso
      have hc2 : st.cancelled = false := hc
      rw [h3] at hc2
      cases hc2
    · exfalso
      rw [h2] at hrel
      cases hrel
    · exfalso
      rw [h2] at hrel
      cases hrel

theorem invLS_reach (ls : List (List Char)) (frag : List Char) (b : Bool)
    (st' : LState) (hok : ∀ l ∈ ls, ('\n') ∉ l) (hf : ('\n') ∉ frag)
    (h : Reach (initLS ⟨joinNL ls ++ frag, .eof⟩ b) st') :
    InvLS ls frag st' := by
  induction h with
  | refl =>
    exact ⟨rfl, rfl, Or.inl ⟨0, Nat.zero_le _, rfl, rfl, rfl⟩⟩
  | tail h1 h2 ih =>
    exact invLS_step ls frag _ _ hok hf ih h2

theorem runToClose (frag : List Char) (hf : ('\n') ∉ frag) :
    ∀ (suf pre : List (List Char)), (∀ l ∈ suf, ('\n') ∉ l) →
    Reach ⟨⟨joinNL suf ++ frag, .eof⟩, false, .selecting, false, pre⟩
          ⟨⟨frag, .eof⟩, false, .closed, false, pre ++ suf⟩ := by
  intro suf
  induction suf with
  | nil =>
    intro pre hok
    have hstep : Step ⟨⟨joinNL [] ++ frag, .eof⟩, false, .selecting, false, pre⟩
        ⟨⟨joinNL [] ++ frag, .eof⟩, false, .closed, false, pre⟩ :=
      Step.recvClosed _ ⟨[], .eof⟩ rfl rfl
        (by
          show pumpNext ⟨joinNL [] ++ frag, .eof⟩ = (PumpMsg.closed, ⟨[], .eof⟩)
          have hj : joinNL [] ++ frag = frag := by simp [joinNL]
          rw [hj]
          exact pumpNext_none_eof ⟨frag, .eof⟩ (splitAtNL_none frag hf) rfl)
    have hj : joinNL [] ++ frag = frag := by simp [joinNL]
    rw [hj] at hstep
    simpa using Relation.ReflTransGen.single hstep
  | cons a t ih =>
    intro pre hok
    have ha : ('\n') ∉ a := hok a (List.mem_cons_self a t)
    have ht : ∀ l ∈ t, ('\n') ∉ l := fun l hl => hok l (List.mem_cons_of_mem a hl)
    have hb : joinNL (a :: t) ++ frag = a ++ '\n' :: (joinNL t ++ frag) := by
      rw [joinNL_cons]
      simp
    have hstep1 : Step ⟨⟨joinNL (a :: t) ++ frag, .eof⟩, false, .selecting, false, pre⟩
        ⟨⟨joinNL t ++ frag, .eof⟩, false, .forwarding a, false, pre⟩ :=
      Step.recvLine _ a ⟨joinNL t ++ frag, .eof⟩ rfl rfl
        (by
          show pumpNext ⟨joinNL (a :: t) ++ frag, .eof⟩ =
            (PumpMsg.line a, ⟨joinNL t ++ frag, .eof⟩)
          rw [hb]
          exact pumpNext_line a (joinNL t ++ frag) .eof ha)
    have hstep2 : Step ⟨⟨joinNL t ++ frag, .eof⟩, false, .forwarding a, false, pre⟩
        ⟨⟨joinNL t ++ frag, .eof⟩, false, .selecting, false, pre ++ [a]⟩ :=
      Step.consumerRecv _ a rfl rfl
    have hrest := ih (pre ++ [a]) ht
    have hfin : (pre ++ [a]) ++ t = pre ++ a :: t := by simp
    rw [hfin] at hrest
    exact Relation.ReflTransGen.head hstep1 (Relation.ReflTransGen.head hstep2 hrest)

/-- C1: for a source consisting of the newline terminated lines ls and a
cancellation signal that never fires, ReadLines delivers exactly the
lines of ls on its returned channel, in source order, each with the
trailing newline stripped, and then closes the channel: every execution
without cancellation that has closed the lines channel has delivered
exactly ls, and an execution doing so exists. -/
theorem c1_stream_delivers_all (ls : List (List Char))
    (hok : ∀ l ∈ ls, ('\n') ∉ l) :
    (∀ st', Reach (initLS ⟨joinNL ls, .eof⟩ false) st' →
        st'.cancelled = false → st'.relay = .closed → st'.delivered = ls) ∧
    (∃ st', Reach (initLS ⟨joinNL ls, .eof⟩ false) st' ∧
        st'.cancelled = false ∧ st'.relay = .closed ∧ st'.delivered = ls) := by
  have hf : ('\n') ∉ ([] : List Char) := List.not_mem_nil '\n'
  constructor
  · intro st' hr hc hcl
    have hr2 : Reach (initLS ⟨joinNL ls ++ [], .eof⟩ false) st' := by
      rw [List.append_nil]
      exact hr
    obtain ⟨hp, he, hcase⟩ := invLS_reach ls [] false st' hok hf hr2
    rcases hcase with ⟨k, hk, hrel, hdel, hbytes⟩ |
      ⟨k, hklt, hrel, hdel, hbytes⟩ | ⟨hrel, hpre, himp⟩
    · exfalso
      rw [hcl] at hrel
      cases hrel
    · exfalso
      rw [hcl] at hrel
      cases hrel
    · exact himp hc
  · have h := runToClose [] hf ls [] hok
    rw [List.append_nil, List.nil_append] at h
    exact ⟨_, h, rfl, rfl, rfl⟩

theorem c1_stream_delivers_all_witness :
    (∀ st', Reach (initLS ⟨joinNL [['a'], ['b']], .eof⟩ false) st' →
        st'.cancelled = false → st'.relay = .closed →
        st'.delivered = [['a'], ['b']]) ∧
    (∃ st', Reach (initLS ⟨joinNL [['a'], ['b']], .eof⟩ false) st' ∧
        st'.cancelled = false ∧ st'.relay = .closed ∧
        st'.delivered = [['a'], ['b']]) :=
  c1_stream_delivers_all [['a'], ['b']] (by decide)

/-- C2 amended: for every read failure other than end of input in the
ReadLines pump, the pump panics, and an unrecovered panic in a goroutine
aborts the whole Go process: from a panicked state no further step is
possible, and in every cancellation free execution on a failing source
the lines channel is never closed, so no termination of the sequence,
normal or abnormal, is ever surfaced to the consumer. -/
theorem c2_pump_failure_panics (s : Source) (hfail : s.endSt = .fail) :
    (∀ st st', st.panicked = true → ¬ Step st st') ∧
    (∀ st', Reach (initLS s false) st' → st'.cancelled = false →
        st'.relay ≠ RelaySt.closed) := by
  constructor
  · intro st st' hpan hs
    cases hs <;> simp_all
  · have key : ∀ st', Reach (initLS s false) st' →
        st'.src.endSt = SourceEnd.fail ∧
          (st'.cancelled = false → st'.relay ≠ RelaySt.closed) := by
      intro st' h
      induction h with
      | refl =>
        exact ⟨hfail, fun _ hcl => RelaySt.noConfusion hcl⟩
      | tail h1 h2 ih =>
        cases h2 with
        | cancel hp hcanc =>
          exact ⟨ih.1, fun hc => Bool.noConfusion hc⟩
        | recvLine l rest hp hrel hpn =>
          refine ⟨?_, fun hc hcl => RelaySt.noConfusion hcl⟩
          show rest.endSt = SourceEnd.fail
          rw [pumpNext_line_endSt _ l rest hpn]
          exact ih.1
        | recvClosed rest hp hrel hpn =>
          exfalso
          have hcontra := pumpNext_closed_eof _ rest hpn
          rw [ih.1] at hcontra
          cases hcontra
        | pumpPanic rest hp hpn =>
          exact ⟨ih.1, fun hc => ih.2 hc⟩
        | consumerRecv l hp hrel =>
          exact ⟨ih.1, fun hc hcl => RelaySt.noConfusion hcl⟩
        | cancelClose hp hrel hcanc =>
          exact ⟨ih.1, fun hc => absurd (hcanc.symm.trans hc) Bool.noConfusion⟩
    intro st' hr hc
    exact (key st' hr).2 hc

theorem c2_pump_failure_panics_witness :
    (∀ st st', st.panicked = true → ¬ Step st st') ∧
    (∀ st', Reach (initLS ⟨[], .fail⟩ false) st' → st'.cancelled = false →
        st'.relay ≠ RelaySt.closed) :=
  c2_pump_failure_panics ⟨[], .fail⟩ rfl

/-- Dead state after the pump panic on an immediately failing source:
the process has aborted with the lines channel never closed. -/
def c2Dead : LState := ⟨⟨[], .fail⟩, true, .selecting, false, []⟩

/-- C2 counterexample: on a source whose first read fails with an error
other than end of input, the pump panics in one step from the initial
state. The whole process crashes (the panicked flag is set, from which no
rule can fire) and the lines channel was never closed, so the failure is
not surfaced to the consumer as an abnormal termination of the sequence:
the claim that the process does not crash fails at this input. -/
theorem c2_counterexample :
    Step (initLS ⟨[], .fail⟩ false) c2Dead ∧ c2Dead.panicked = true ∧
      c2Dead.relay ≠ RelaySt.closed := by
  refine ⟨?_, rfl, by decide⟩
  exact Step.pumpPanic (initLS ⟨[], .fail⟩ false) ⟨[], .fail⟩ rfl rfl

/-- Reachable state of ReadLines on source bytes "line 1\n" in which the
context has been cancelled and the relay is blocked in the bare send
lines <- l, forwarding "line 1" to a consumer that has not received it. -/
def c3Blocked : LState :=
  ⟨⟨[], .eof⟩, false, .forwarding ("line 1".toList), true, []⟩

/-- C3: the forward of a received line is the bare send lines <- l of the
code, not a select that also waits on ctx.Done(): the blocked forwarding
state with the cancellation signal already fired is reachable, and from
it, as long as the consumer receives nothing (delivered stays empty), no
step changes the state at all, so the relay stays blocked forever and
the lines channel is never closed, contrary to the claim that this wait
is cancellable. -/
theorem c3_forward_send_ignores_cancel :
    Reach (initLS ⟨"line 1\n".toList, .eof⟩ false) c3Blocked ∧
    (∀ st', Reach c3Blocked st' → st'.delivered = [] → st' = c3Blocked) := by
  constructor
  · have hstep1 : Step (initLS ⟨"line 1\n".toList, .eof⟩ false)
        (initLS ⟨"line 1\n".toList, .eof⟩ true) :=
      Step.cancel (initLS ⟨"line 1\n".toList, .eof⟩ false) rfl rfl
    have hstep2 : Step (initLS ⟨"line 1\n".toList, .eof⟩ true) c3Blocked :=
      Step.recvLine (initLS ⟨"line 1\n".toList, .eof⟩ true)
        ("line 1".toList) ⟨[], .eof⟩ rfl rfl (by decide)
    exact Relation.ReflTransGen.head hstep1 (Relation.ReflTransGen.single hstep2)
  · intro st' h
    induction h with
    | refl => intro _; rfl
    | tail h1 h2 ih =>
      intro hd
      exfalso
      cases h2 with
      | cancel hp hc =>
        have hmid := ih hd
        rw [hmid] at hc
        exact absurd hc (by decide)
      | recvLine l rest hp hrel hpn =>
        have hmid := ih hd
        rw [hmid] at hrel
        exact absurd hrel (by decide)
      | recvClosed rest hp hrel hpn =>
        have hmid := ih hd
        rw [hmid] at hrel
        exact absurd hrel (by decide)
      | pumpPanic rest hp hpn =>
        have hmid := ih hd
        rw [hmid] at hpn
        rw [show pumpNext c3Blocked.src = (PumpMsg.closed, ⟨[], SourceEnd.eof⟩)
          from rfl] at hpn
        simp at hpn
      | consumerRecv l hp hrel =>
        simp at hd
      | cancelClose hp hrel hc =>
        have hmid := ih hd
        rw [hmid] at hrel
        exact absurd hrel (by decide)

theorem c3_forward_send_ignores_cancel_witness : c3Blocked = c3Blocked :=
  c3_forward_send_ignores_cancel.2 c3Blocked Relation.ReflTransGen.refl rfl

/-- C4 amended: in every execution of ReadLines on the terminated lines
ls, the delivered lines always form a prefix of ls, in source order, so
after cancellation fired with K lines forwarded the sequence holds the
first M lines for some M with K ≤ M ≤ N; from every cancelled state,
closure of the lines channel is reachable, with the consumer seeing the
end of the sequence, not an error. Exactly K is not guaranteed: the
select may still forward lines the pump already has ready after the
signal fires (see the counterexample). -/
theorem c4_cancel_closes_with_prefix (ls : List (List Char))
    (hok : ∀ l ∈ ls, ('\n') ∉ l) :
    ∀ st', Reach (initLS ⟨joinNL ls, .eof⟩ false) st' →
      ((∃ k, k ≤ ls.length ∧ st'.delivered = ls.take k) ∧
       (st'.cancelled = true → ∃ st'', Reach st' st'' ∧
          st''.relay = RelaySt.closed ∧
          ∃ m, m ≤ ls.length ∧ st''.delivered = ls.take m ∧
            st'.delivered.length ≤ m)) := by
  intro st' hr
  have hf : ('\n') ∉ ([] : List Char) := List.not_mem_nil '\n'
  have hr2 : Reach (initLS ⟨joinNL ls ++ [], .eof⟩ false) st' := by
    rw [List.append_nil]
    exact hr
  obtain ⟨hp, he, hcase⟩ := invLS_reach ls [] false st' hok hf hr2
  rcases hcase with ⟨k, hk, hrel, hdel, hbytes⟩ |
    ⟨k, hklt, hrel, hdel, hbytes⟩ | ⟨hrel, ⟨k, hk, hdel⟩, himp⟩
  · refine ⟨⟨k, hk, hdel⟩, fun hc => ?_⟩
    refine ⟨{ st' with relay := RelaySt.closed },
      Relation.ReflTransGen.single (Step.cancelClose st' hp hrel hc), rfl,
      k, hk, hdel, ?_⟩
    rw [hdel, List.length_take]
    exact Nat.min_le_left k ls.length
  · refine ⟨⟨k, Nat.le_of_lt hklt, hdel⟩, fun hc => ?_⟩
    have hstep1 : Step st'
        { st' with
          relay := RelaySt.selecting,
          delivered := st'.delivered ++ [ls.get ⟨k, hklt⟩] } :=
      Step.consumerRecv st' (ls.get ⟨k, hklt⟩) hp hrel
    have hstep2 : Step
        { st' with
          relay := RelaySt.selecting,
          delivered := st'.delivered ++ [ls.get ⟨k, hklt⟩] }
        { st' with
          relay := RelaySt.closed,
          delivered := st'.delivered ++ [ls.get ⟨k, hklt⟩] } :=
      Step.cancelClose _ hp rfl hc
    refine ⟨_, Relation.ReflTransGen.head hstep1
      (Relation.ReflTransGen.single hstep2), rfl, k + 1, hklt, ?_, ?_⟩
    · show st'.delivered ++ [ls.get ⟨k, hklt⟩] = ls.take (k + 1)
      rw [hdel, take_snoc_get ls k hklt]
    · rw [hdel, List.length_take]
      exact Nat.le_succ_of_le (Nat.min_le_left k ls.length)
  · refine ⟨⟨k, hk, hdel⟩, fun hc => ?_⟩
    refine ⟨st', Relation.ReflTransGen.refl, hrel, k, hk, hdel, ?_⟩
    rw [hdel, List.length_take]
    exact Nat.min_le_left k ls.length

theorem c4_cancel_closes_with_prefix_witness :
    ((∃ k, k ≤ [['a']].length ∧
        (initLS ⟨joinNL [['a']], .eof⟩ true).delivered = [['a']].take k) ∧
     ((initLS ⟨joinNL [['a']], .eof⟩ true).cancelled = true →
        ∃ st'', Reach (initLS ⟨joinNL [['a']], .eof⟩ true) st'' ∧
          st''.relay = RelaySt.closed ∧
          ∃ m, m ≤ [['a']].length ∧ st''.delivered = [['a']].take m ∧
            (initLS ⟨joinNL [['a']], .eof⟩ true).delivered.length ≤ m)) :=
  c4_cancel_closes_with_prefix [['a']] (by decide)
    (initLS ⟨joinNL [['a']], .eof⟩ true)
    (Relation.ReflTransGen.single
      (Step.cancel (initLS ⟨joinNL [['a']], .eof⟩ false) rfl rfl))

/-- Final state of the counterexample execution for C4: the channel is
closed after one line was delivered although cancellation fired first. -/
def c4Final : LState :=
  ⟨⟨"b\n".toList, .eof⟩, false, .closed, true, [("a".toList)]⟩

/-- C4 counterexample: on source bytes "a\nb\n" the cancellation signal
fires first, when exactly K = 0 lines have been forwarded (the state
after the cancel step has an empty delivered list); yet the relay select,
choosing among ready branches, still takes the pump branch, forwards the
line "a" to the consumer, and only then closes: the closed sequence holds
one line, not the zero lines forwarded when cancellation fired. -/
theorem c4_counterexample :
    Step (initLS ⟨"a\nb\n".toList, .eof⟩ false)
      (initLS ⟨"a\nb\n".toList, .eof⟩ true) ∧
    (initLS ⟨"a\nb\n".toList, .eof⟩ true).delivered = [] ∧
    Reach (initLS ⟨"a\nb\n".toList, .eof⟩ true) c4Final ∧
    c4Final.relay = RelaySt.closed ∧ c4Final.delivered = [("a".toList)] ∧
    ([("a".toList)] : List (List Char)) ≠ [] := by
  refine ⟨Step.cancel (initLS ⟨"a\nb\n".toList, .eof⟩ false) rfl rfl,
    rfl, ?_, rfl, rfl, by decide⟩
  have hstep1 : Step (initLS ⟨"a\nb\n".toList, .eof⟩ true)
      ⟨⟨"b\n".toList, .eof⟩, false, .forwarding ("a".toList), true, []⟩ :=
    Step.recvLine (initLS ⟨"a\nb\n".toList, .eof⟩ true)
      ("a".toList) ⟨"b\n".toList, .eof⟩ rfl rfl (by decide)
  have hstep2 : Step
      ⟨⟨"b\n".toList, .eof⟩, false, .forwarding ("a".toList), true, []⟩
      ⟨⟨"b\n".toList, .eof⟩, false, .selecting, true, [("a".toList)]⟩ :=
    Step.consumerRecv _ ("a".toList) rfl rfl
  have hstep3 : Step
      ⟨⟨"b\n".toList, .eof⟩, false, .selecting, true, [("a".toList)]⟩ c4Final :=
    Step.cancelClose _ rfl rfl rfl
  exact Relation.ReflTransGen.head hstep1 (Relation.ReflTransGen.head hstep2
    (Relation.ReflTransGen.single hstep3))

/-- C5: when the single read of the ReadLine pump fails with any error
other than end of input (no newline among the remaining bytes, and the
source then reports a failure), ReadLine returns the empty string in
every execution, exactly as for cancellation and for clean exhaustion:
the pump branch sends the empty string because err is non nil, and the
Done branch returns the empty string. -/
theorem c5_readline_failure_empty (s : Source) (hb : ('\n') ∉ s.bytes)
    (_hfail : s.endSt = .fail) :
    ∀ b out, ReadLineOutcome b s out → out = [] := by
  intro b out h
  cases h with
  | pump b s =>
    unfold readLinePump
    rw [readString_none s (splitAtNL_none s.bytes hb)]
    simp
  | cancel s => rfl

theorem c5_readline_failure_empty_witness :
    readLinePump ⟨['a'], .fail⟩ = [] :=
  c5_readline_failure_empty ⟨['a'], .fail⟩ (by decide) rfl false
    (readLinePump ⟨['a'], .fail⟩)
    (ReadLineOutcome.pump false ⟨['a'], .fail⟩)

/-- C6 amended: with the cancellation signal already signalled before the
call, neither operation needs to block on the byte source: ReadLine has
the immediate Done branch execution returning the empty string, and
ReadLines has a one step execution closing the lines channel with nothing
delivered, and with the source untouched. Because the Go select picks
among ready branches with no priority, these outcomes are always
available but not guaranteed: when the pump already has data ready the
select may deliver it instead (see the counterexample). -/
theorem c6_precancelled_immediate (s : Source) :
    ReadLineOutcome true s [] ∧
    Step (initLS s true) ⟨s, false, RelaySt.closed, true, []⟩ :=
  ⟨ReadLineOutcome.cancel s, Step.cancelClose (initLS s true) rfl rfl rfl⟩

theorem c6_precancelled_immediate_witness :
    ReadLineOutcome true ⟨[], .eof⟩ [] ∧
    Step (initLS ⟨[], .eof⟩ true) ⟨⟨[], .eof⟩, false, RelaySt.closed, true, []⟩ :=
  c6_precancelled_immediate ⟨[], .eof⟩

/-- C6 counterexample: signal already signalled before the call, source
bytes "hi\n": the select inside ReadLine may still take the ready pump
branch and return "hi" rather than the empty string, so the claim that
ReadLine then returns the empty string fails at this input. -/
theorem c6_counterexample :
    ReadLineOutcome true ⟨"hi\n".toList, .eof⟩ ("hi".toList) ∧
    "hi".toList ≠ ([] : List Char) := by
  constructor
  · have h := ReadLineOutcome.pump true ⟨"hi\n".toList, .eof⟩
    have e : readLinePump ⟨"hi\n".toList, .eof⟩ = "hi".toList := by decide
    rw [e] at h
    exact h
  · decide

/-- C7: a source with zero bytes and immediate clean exhaustion, with the
signal never firing: ReadLine returns the empty string in its only
available execution, ReadLines delivers nothing in any reachable state,
and an execution closing the lines channel exists. -/
theorem c7_empty_source (out : List Char) :
    (ReadLineOutcome false ⟨[], .eof⟩ out → out = []) ∧
    (∀ st', Reach (initLS ⟨[], .eof⟩ false) st' → st'.delivered = []) ∧
    Reach (initLS ⟨[], .eof⟩ false)
      ⟨⟨[], .eof⟩, false, RelaySt.closed, false, []⟩ := by
  refine ⟨?_, ?_, ?_⟩
  · intro h
    cases h with
    | pump b s => rfl
  · intro st' hr
    have hf : ('\n') ∉ ([] : List Char) := List.not_mem_nil '\n'
    obtain ⟨hp, he, hcase⟩ := invLS_reach [] [] false st' (by simp) hf hr
    rcases hcase with ⟨k, hk, hrel, hdel, hbytes⟩ |
      ⟨k, hklt, hrel, hdel, hbytes⟩ | ⟨hrel, ⟨k, hk, hdel⟩, himp⟩
    · rw [hdel]
      simp
    · exact absurd hklt (by simp)
    · rw [hdel]
      simp
  · have hf : ('\n') ∉ ([] : List Char) := List.not_mem_nil '\n'
    exact runToClose [] hf [] [] (by simp)

theorem c7_empty_source_witness :
    readLinePump ⟨[], .eof⟩ = [] ∧
    (initLS ⟨[], .eof⟩ false).delivered = [] :=
  ⟨(c7_empty_source (readLinePump ⟨[], .eof⟩)).1
      (ReadLineOutcome.pump false ⟨[], .eof⟩),
   (c7_empty_source []).2.1 (initLS ⟨[], .eof⟩ false)
      Relation.ReflTransGen.refl⟩

/-- C8: every delivered line is the source text with only the trailing
newline stripped and no other normalization: when the next bytes are l
followed by a newline and then rest, with l itself newline free (l may
contain any other characters, in particular a final carriage return),
the ReadLine pump yields exactly l, the ReadLines pump emits exactly l,
and the relay select forwards exactly that l, all bytes unchanged. -/
theorem c8_strip_only_newline (l rest : List Char) (e : SourceEnd)
    (h : ('\n') ∉ l) :
    readLinePump ⟨l ++ '\n' :: rest, e⟩ = l ∧
    pumpNext ⟨l ++ '\n' :: rest, e⟩ = (PumpMsg.line l, ⟨rest, e⟩) ∧
    (∀ st, st.panicked = false → st.relay = RelaySt.selecting →
      st.src = ⟨l ++ '\n' :: rest, e⟩ →
      Step st { st with relay := RelaySt.forwarding l, src := ⟨rest, e⟩ }) := by
  refine ⟨?_, pumpNext_line l rest e h, ?_⟩
  · unfold readLinePump
    rw [readString_some ⟨l ++ '\n' :: rest, e⟩ (l ++ ['\n']) rest
      (splitAtNL_append l rest h)]
    simp
  · intro st hp hrel hsrc
    refine Step.recvLine st l ⟨rest, e⟩ hp hrel ?_
    rw [hsrc]
    exact pumpNext_line l rest e h

theorem c8_strip_only_newline_witness :
    readLinePump ⟨['a', '\r'] ++ '\n' :: [], SourceEnd.eof⟩ = ['a', '\r'] ∧
    pumpNext ⟨['a', '\r'] ++ '\n' :: [], SourceEnd.eof⟩ =
      (PumpMsg.line ['a', '\r'], ⟨[], SourceEnd.eof⟩) ∧
    (∀ st, st.panicked = false → st.relay = RelaySt.selecting →
      st.src = ⟨['a', '\r'] ++ '\n' :: [], SourceEnd.eof⟩ →
      Step st { st with relay := RelaySt.forwarding ['a', '\r'],
                        src := ⟨[], SourceEnd.eof⟩ }) :=
  c8_strip_only_newline ['a', '\r'] [] SourceEnd.eof (by decide)

/-- C9: on source bytes "This is a test line\n" with a signal that never
fires, ReadLine returns exactly "This is a test line": the only available
outcome is the pump branch, and it yields that string. -/
theorem c9_concrete_readline (out : List Char) :
    (ReadLineOutcome false ⟨"This is a test line\n".toList, .eof⟩ out →
      out = "This is a test line".toList) ∧
    ReadLineOutcome false ⟨"This is a test line\n".toList, .eof⟩
      ("This is a test line".toList) := by
  constructor
  · intro h
    cases h with
    | pump b s => decide
  · have h := ReadLineOutcome.pump false ⟨"This is a test line\n".toList, .eof⟩
    have e : readLinePump ⟨"This is a test line\n".toList, .eof⟩ =
        "This is a test line".toList := by decide
    rw [e] at h
    exact h

theorem c9_concrete_readline_witness :
    readLinePump ⟨"This is a test line\n".toList, .eof⟩ =
      "This is a test line".toList :=
  (c9_concrete_readline
      (readLinePump ⟨"This is a test line\n".toList, .eof⟩)).1
    (ReadLineOutcome.pump false ⟨"This is a test line\n".toList, .eof⟩)

/-- C10: a final non empty fragment not followed by a newline is silently
discarded by both operations: ReadLine called when only the fragment
remains returns the empty string (its read reports io.EOF with partial
data, which the code maps to the empty string), and ReadLines on the
terminated lines ls followed by the fragment closes the channel after
delivering exactly ls in every cancellation free execution, never the
fragment; an execution reaching that closure exists. -/
theorem c10_fragment_discarded (ls : List (List Char)) (frag : List Char)
    (hok : ∀ l ∈ ls, ('\n') ∉ l) (hf : ('\n') ∉ frag) (_hne : frag ≠ []) :
    (∀ b out, ReadLineOutcome b ⟨frag, .eof⟩ out → out = []) ∧
    (∀ st', Reach (initLS ⟨joinNL ls ++ frag, .eof⟩ false) st' →
        st'.cancelled = false → st'.relay = RelaySt.closed →
        st'.delivered = ls) ∧
    Reach (initLS ⟨joinNL ls ++ frag, .eof⟩ false)
      ⟨⟨frag, .eof⟩, false, RelaySt.closed, false, ls⟩ := by
  refine ⟨?_, ?_, ?_⟩
  · intro b out h
    cases h with
    | pump b s =>
      unfold readLinePump
      rw [readString_none ⟨frag, .eof⟩ (splitAtNL_none frag hf)]
      simp
    | cancel s => rfl
  · intro st' hr hc hcl
    obtain ⟨hp, he, hcase⟩ := invLS_reach ls frag false st' hok hf hr
    rcases hcase with ⟨k, hk, hrel, hdel, hbytes⟩ |
      ⟨k, hklt, hrel, hdel, hbytes⟩ | ⟨hrel, hpre, himp⟩
    · exfalso
      rw [hcl] at hrel
      cases hrel
    · exfalso
      rw [hcl] at hrel
      cases hrel
    · exact himp hc
  · have h := runToClose frag hf ls [] hok
    rw [List.nil_append] at h
    exact h

theorem c10_fragment_discarded_witness :
    readLinePump ⟨['b'], .eof⟩ = [] ∧
    Reach (initLS ⟨joinNL [['a']] ++ ['b'], .eof⟩ false)
      ⟨⟨['b'], .eof⟩, false, RelaySt.closed, false, [['a']]⟩ :=
  ⟨(c10_fragment_discarded [['a']] ['b'] (by decide) (by decide)
      (by decide)).1 false (readLinePump ⟨['b'], .eof⟩)
      (ReadLineOutcome.pump false ⟨['b'], .eof⟩),
   (c10_fragment_discarded [['a']] ['b'] (by decide) (by decide)
      (by decide)).2.2⟩
